import Mathlib

/-!
Shallow embedding of the incremental rerun engine in `lib/watcher.js`:
the watcher's trackers (test dependencies, exclusivity, failures), the
run-request computation with its exclusivity override, the decision
algorithm `runAfterChanges`, and the debouncer, each translated from the
JavaScript source.  Lists model JavaScript arrays (order and duplicates
preserved); an association list models the `dirtyStates` object.
-/

/-- Filesystem event kinds the watcher reacts to (`add`, `change`, `unlink`). -/
inductive FsEvent
  | add
  | change
  | unlink
deriving DecidableEq, Repr

/-- Embeds `arr-diff`: elements of `a` that do not occur in `b`. -/
def arrDiff (a b : List String) : List String :=
  a.filter (fun x => !b.contains x)

/-- Embeds `array-uniq` with an explicit seen-accumulator: keeps the first
occurrence of each element. -/
def uniqAux (seen : List String) : List String → List String
  | [] => []
  | x :: xs => if seen.contains x then uniqAux seen xs else x :: uniqAux (x :: seen) xs

/-- Embeds `array-uniq`: deduplicate, keeping first occurrences. -/
def uniq (l : List String) : List String :=
  uniqAux [] l

/-- Embeds `array-union`: deduplicated concatenation. -/
def union (a b : List String) : List String :=
  uniq (a ++ b)

/-- Entry of `this.testDependencies` (watcher.js): a test file and the source files it
currently depends on. -/
structure TestDependency where
  file : String
  sources : List String
deriving DecidableEq, Repr

/-- Embeds `TestDependency.prototype.contains`: membership test on the sources. -/
def TestDependency.containsSource (dep : TestDependency) (source : String) : Bool :=
  dep.sources.contains source

/-- A failure record (element of `this.filesWithFailures`): file, run
vector at creation, and a failure count. -/
structure FailureState where
  file : String
  vector : Nat
  count : Nat
deriving DecidableEq, Repr

/-- Helper for `updateTestDependencies`: the JavaScript `some` callback
mutates the first entry whose `file` matches and stops; `none` when no
entry matches. -/
def updateFirstDep (file : String) (sources : List String) :
    List TestDependency → Option (List TestDependency)
  | [] => none
  | d :: ds =>
    if d.file = file then some ({ d with sources := sources } :: ds)
    else (updateFirstDep file sources ds).map (fun rest => d :: rest)

/-- Embeds `Watcher.prototype.updateTestDependencies`: with an empty source list,
drop every entry for `file`; otherwise update the first matching entry in
place, or push a new entry. -/
def updateTestDependencies (deps : List TestDependency) (file : String)
    (sources : List String) : List TestDependency :=
  if sources.length = 0 then deps.filter (fun dep => dep.file ≠ file)
  else
    match updateFirstDep file sources deps with
    | some deps2 => deps2
    | none => deps ++ [TestDependency.mk file sources]

/-- Embeds `Watcher.prototype.updateExclusivity`: push when newly exclusive,
splice out (first occurrence) when no longer exclusive. -/
def updateExclusivity (filesWithExclusiveTests : List String) (file : String)
    (hasExclusiveTests : Bool) : List String :=
  if hasExclusiveTests && !filesWithExclusiveTests.contains file then
    filesWithExclusiveTests ++ [file]
  else if !hasExclusiveTests && filesWithExclusiveTests.contains file then
    filesWithExclusiveTests.erase file
  else filesWithExclusiveTests

/-- Embeds `Watcher.prototype.pruneFailures`: drop every record for `file`. -/
def pruneFailures (filesWithFailures : List FailureState) (file : String) :
    List FailureState :=
  filesWithFailures.filter (fun state => state.file ≠ file)

/-- Helper for `countFailure`: the JavaScript `some` callback increments
the count of the first record whose `file` matches and stops. -/
def countFirstFailure (file : String) :
    List FailureState → Option (List FailureState)
  | [] => none
  | s :: ss =>
    if s.file = file then some ({ s with count := s.count + 1 } :: ss)
    else (countFirstFailure file ss).map (fun rest => s :: rest)

/-- Embeds `Watcher.prototype.countFailure`: increment the first matching
record's count, or push a fresh record carrying the given run vector. -/
def countFailure (filesWithFailures : List FailureState) (file : String)
    (vector : Nat) : List FailureState :=
  match countFirstFailure file filesWithFailures with
  | some fs => fs
  | none => filesWithFailures ++ [FailureState.mk file vector 1]

/-- Embeds `Watcher.prototype.sumPreviousFailures`: `forEach` accumulation of the
counts of records whose vector is below `beforeVector`. -/
def sumPreviousFailures (filesWithFailures : List FailureState)
    (beforeVector : Nat) : Nat :=
  filesWithFailures.foldl
    (fun total state => if state.vector < beforeVector then total + state.count else total) 0

/-- The mutable tracker state `runAfterChanges` reads and writes. -/
structure TrackerState where
  testDependencies : List TestDependency
  filesWithExclusiveTests : List String
  filesWithFailures : List FailureState
deriving DecidableEq, Repr

/-- One iteration of the `forEach` in `Watcher.prototype.cleanUnlinkedTests`:
clear the test file's dependency entry, exclusivity flag and failure record. -/
def cleanOneTest (st : TrackerState) (testFile : String) : TrackerState :=
  { testDependencies := updateTestDependencies st.testDependencies testFile []
    filesWithExclusiveTests := updateExclusivity st.filesWithExclusiveTests testFile false
    filesWithFailures := pruneFailures st.filesWithFailures testFile }

/-- Embeds `Watcher.prototype.cleanUnlinkedTests`: full cleanup of each unlinked
test file across the three trackers. -/
def cleanUnlinkedTests (st : TrackerState) (unlinkedTests : List String) :
    TrackerState :=
  unlinkedTests.foldl cleanOneTest st

/-- What `Watcher.run` hands to `api.run`: the file list and the
`runOnlyExclusive` flag. -/
structure RunRequest where
  files : List String
  runOnlyExclusive : Bool
deriving DecidableEq, Repr

/-- Embeds `Watcher.run` (constructor closure, watcher.js lines 49-91), restricted
to what reaches `api.run`: absent `specificFiles` means the full configured
`files` list; otherwise the exclusivity override compares the requested
files that bear exclusive tests against the whole exclusive set by length,
and on mismatch substitutes all exclusive-bearing files plus the remaining
requested files. -/
def run (filesWithExclusiveTests : List String) (files : List String)
    (specificFiles : Option (List String)) : RunRequest :=
  match specificFiles with
  | none => { files := files, runOnlyExclusive := false }
  | some sf =>
    let exclusiveFiles := sf.filter (fun file => filesWithExclusiveTests.contains file)
    let runOnlyExclusive := exclusiveFiles.length ≠ filesWithExclusiveTests.length
    if runOnlyExclusive then
      { files := filesWithExclusiveTests ++ arrDiff sf exclusiveFiles
        runOnlyExclusive := true }
    else { files := sf, runOnlyExclusive := false }

/-- Object indexing `dirtyStates[path]`. -/
def lookupState (dirtyStates : List (String × FsEvent)) (path : String) :
    Option FsEvent :=
  (dirtyStates.find? (fun pe => pe.fst = path)).map Prod.snd

/-- Embeds `Object.keys(dirtyStates)`. -/
def dirtyPathsOf (dirtyStates : List (String × FsEvent)) : List String :=
  dirtyStates.map Prod.fst

/-- Local `dirtyTests` in `runAfterChanges`. -/
def dirtyTestsOf (isTest : String → Bool) (dirtyStates : List (String × FsEvent)) :
    List String :=
  (dirtyPathsOf dirtyStates).filter isTest

/-- Local `dirtySources` in `runAfterChanges`. -/
def dirtySourcesOf (isTest : String → Bool) (dirtyStates : List (String × FsEvent)) :
    List String :=
  arrDiff (dirtyPathsOf dirtyStates) (dirtyTestsOf isTest dirtyStates)

/-- Local `addedOrChangedTests` in `runAfterChanges`: dirty tests whose recorded
event is not `unlink`. -/
def addedOrChangedTestsOf (isTest : String → Bool)
    (dirtyStates : List (String × FsEvent)) : List String :=
  (dirtyTestsOf isTest dirtyStates).filter
    (fun path => !(lookupState dirtyStates path == some FsEvent.unlink))

/-- Local `unlinkedTests` in `runAfterChanges`. -/
def unlinkedTestsOf (isTest : String → Bool)
    (dirtyStates : List (String × FsEvent)) : List String :=
  arrDiff (dirtyTestsOf isTest dirtyStates) (addedOrChangedTestsOf isTest dirtyStates)

/-- Embeds `tracedTestsFor` (spec §4.3): test files whose dependency entry
contains the given source path; in `runAfterChanges` this is the per-path
map body building `testsBySource`. -/
def tracedTestsFor (deps : List TestDependency) (sourcePath : String) :
    List String :=
  (deps.filter (fun dep => dep.containsSource sourcePath)).map TestDependency.file

/-- Local `testsBySource` in `runAfterChanges`: traced tests per dirty source,
empty groups dropped.  Computed against the trackers after removed-test
cleanup, as in the source (cleanup happens first). -/
def testsBySourceOf (isTest : String → Bool) (deps : List TestDependency)
    (dirtyStates : List (String × FsEvent)) : List (List String) :=
  ((dirtySourcesOf isTest dirtyStates).map
    (fun path => tracedTestsFor deps path)).filter (fun tests => tests.length > 0)

/-- Outcome of one decision cycle: skip, a scoped run of the given file
list, or an unscoped full run (`this.run()`). -/
inductive RunDecision
  | noRun
  | runSpecific (files : List String)
  | runAll
deriving DecidableEq, Repr

/-- Embeds `Watcher.prototype.runAfterChanges`: consume the dirty states, clean
up unlinked tests, and decide what to run.  Returns the decision and the
tracker state after cleanup. -/
def runAfterChanges (isTest : String → Bool) (st : TrackerState)
    (dirtyStates : List (String × FsEvent)) : RunDecision × TrackerState :=
  let dirtyPaths := dirtyPathsOf dirtyStates
  let dirtySources := dirtySourcesOf isTest dirtyStates
  let addedOrChangedTests := addedOrChangedTestsOf isTest dirtyStates
  let unlinkedTests := unlinkedTestsOf isTest dirtyStates
  let st2 := cleanUnlinkedTests st unlinkedTests
  if unlinkedTests.length = dirtyPaths.length then (RunDecision.noRun, st2)
  else if dirtySources.length = 0 then (RunDecision.runSpecific addedOrChangedTests, st2)
  else
    let testsBySource := testsBySourceOf isTest st2.testDependencies dirtyStates
    if testsBySource.length ≠ dirtySources.length then (RunDecision.runAll, st2)
    else
      (RunDecision.runSpecific (union addedOrChangedTests (uniq testsBySource.flatten)), st2)

/-- Debouncer state: `timer` models whether `this.timer` is non-null,
`again` is the re-fire flag. -/
structure Debouncer where
  timer : Bool
  again : Bool
deriving DecidableEq, Repr

/-- Embeds `Debouncer.prototype.debounce`: with a timer armed, set the re-fire
flag; otherwise arm the timer. -/
def Debouncer.debounce (d : Debouncer) : Debouncer :=
  if d.timer then { d with again := true } else { d with timer := true }

/-- Embeds `Debouncer.prototype.cancel`: clear the armed timer and the re-fire
flag; no-op when idle. -/
def Debouncer.cancel (d : Debouncer) : Debouncer :=
  if d.timer then { timer := false, again := false } else d

/-- The watcher-plus-debouncer system observed for the coalescing
property: the accumulated dirty states, the debouncer, and the log of
dirty-state snapshots consumed by successive `runAfterChanges`
invocations. -/
structure WatchSystem where
  dirtyStates : List (String × FsEvent)
  deb : Debouncer
  cycles : List (List (String × FsEvent))
deriving DecidableEq, Repr

/-- Embeds the assignment `this.dirtyStates[path] = event`: overwrite the value when the key
exists (key order keeps first insertion), otherwise append. -/
def setDirty (dirtyStates : List (String × FsEvent)) (path : String)
    (event : FsEvent) : List (String × FsEvent) :=
  if (dirtyStates.map Prod.fst).contains path then
    dirtyStates.map (fun pe => if pe.fst = path then (path, event) else pe)
  else dirtyStates ++ [(path, event)]

/-- The chokidar `all` handler (watcher.js lines 116-122): record the
dirty state, then debounce. -/
def onFsEvent (w : WatchSystem) (path : String) (event : FsEvent) : WatchSystem :=
  { w with dirtyStates := setDirty w.dirtyStates path event
           deb := w.deb.debounce }

/-- One timer expiry after the busy promise settles: a canceled timer does
nothing; a set re-fire flag re-arms without running; otherwise
`runAfterChanges` consumes (and clears) the dirty states. -/
def onTimerExpiry (w : WatchSystem) : WatchSystem :=
  if !w.deb.timer then w
  else if w.deb.again then { w with deb := { timer := true, again := false } }
  else
    { dirtyStates := []
      deb := { timer := false, again := false }
      cycles := w.cycles ++ [w.dirtyStates] }

/-- Let every pending timer expire.  One expiry either fires the cycle or
(re-fire flag set) re-arms with the flag cleared, so two expiries always
reach quiescence. -/
def settle (w : WatchSystem) : WatchSystem :=
  onTimerExpiry (onTimerExpiry w)

/-- A quiescent system with no dirty state and an idle debouncer. -/
def idleSystem : WatchSystem :=
  { dirtyStates := [], deb := { timer := false, again := false }, cycles := [] }

/-- Feed a burst of filesystem events into the system. -/
def feedEvents (w : WatchSystem) (events : List (String × FsEvent)) : WatchSystem :=
  events.foldl (fun w pe => onFsEvent w pe.fst pe.snd) w

theorem mem_uniqAux {seen l : List String} {x : String} :
    x ∈ uniqAux seen l ↔ x ∈ l ∧ x ∉ seen := by
  induction l generalizing seen with
  | nil => simp [uniqAux]
  | cons a as ih =>
    simp only [uniqAux]
    by_cases h : seen.contains a
    · rw [if_pos h, ih, List.mem_cons]
      have ha : a ∈ seen := by simpa using h
      constructor
      · rintro ⟨h1, h2⟩
        exact ⟨Or.inr h1, h2⟩
      · rintro ⟨h1 | h1, h2⟩
        · exact absurd (show x ∈ seen by rw [h1]; exact ha) h2
        · exact ⟨h1, h2⟩
    · rw [if_neg h, List.mem_cons, List.mem_cons]
      have ha : a ∉ seen := by simpa using h
      constructor
      · rintro (rfl | h1)
        · exact ⟨Or.inl rfl, ha⟩
        · rw [ih, List.mem_cons] at h1
          exact ⟨Or.inr h1.1, fun hx => h1.2 (Or.inr hx)⟩
      · rintro ⟨rfl | h1, h2⟩
        · exact Or.inl rfl
        · by_cases hxa : x = a
          · exact Or.inl hxa
          · refine Or.inr ?_
            rw [ih, List.mem_cons]
            exact ⟨h1, by simp [hxa, h2]⟩

theorem mem_uniq {l : List String} {x : String} : x ∈ uniq l ↔ x ∈ l := by
  simp [uniq, mem_uniqAux]

theorem nodup_uniqAux (seen l : List String) : (uniqAux seen l).Nodup := by
  induction l generalizing seen with
  | nil => simp [uniqAux]
  | cons a as ih =>
    simp only [uniqAux]
    by_cases h : seen.contains a
    · rw [if_pos h]; exact ih seen
    · rw [if_neg h, List.nodup_cons]
      refine ⟨fun hmem => ?_, ih (a :: seen)⟩
      have := mem_uniqAux.mp hmem
      simp at this

theorem nodup_uniq (l : List String) : (uniq l).Nodup := nodup_uniqAux [] l

theorem uniqAux_eq_self {seen l : List String} (h : l.Nodup)
    (hdisj : ∀ x ∈ l, x ∉ seen) : uniqAux seen l = l := by
  induction l generalizing seen with
  | nil => simp [uniqAux]
  | cons a as ih =>
    have ha : ¬ seen.contains a := by simpa using hdisj a (List.mem_cons_self a as)
    simp only [uniqAux, if_neg ha]
    congr 1
    refine ih (List.nodup_cons.mp h).2 (fun x hx => ?_)
    simp only [List.mem_cons]
    rintro (rfl | hxs)
    · exact (List.nodup_cons.mp h).1 hx
    · exact hdisj x (List.mem_cons_of_mem a hx) hxs

theorem uniq_eq_self {l : List String} (h : l.Nodup) : uniq l = l :=
  uniqAux_eq_self h (by simp)

theorem mem_union {a b : List String} {x : String} :
    x ∈ union a b ↔ x ∈ a ∨ x ∈ b := by
  simp [union, mem_uniq]

theorem nodup_union (a b : List String) : (union a b).Nodup := nodup_uniq _

theorem sumPreviousFailures_foldl (l : List FailureState) (g acc : Nat) :
    (l.foldl (fun total state =>
        if state.vector < g then total + state.count else total) acc)
      = acc + ((l.filter (fun s => s.vector < g)).map FailureState.count).sum := by
  induction l generalizing acc with
  | nil => simp
  | cons s ss ih =>
    simp only [List.foldl_cons, List.filter_cons]
    by_cases h : s.vector < g
    · simp [h, ih]
      omega
    · simp [h, ih]

/-- C5: `sumPreviousFailures g` returns the sum of the counts of the
failure records whose generation is strictly below `g`; in the two-run
scenario (run 1 full, one failure for `X` at generation 1; run 2 scoped to
`Y` only, which prunes only `Y` before running at generation 2), the
reported `previousFailCount` of run 2 equals 1. -/
theorem sumPreviousFailures_spec (filesWithFailures : List FailureState) (g : Nat) :
    sumPreviousFailures filesWithFailures g
      = ((filesWithFailures.filter (fun s => s.vector < g)).map FailureState.count).sum ∧
    sumPreviousFailures (pruneFailures (countFailure [] "X" 1) "Y") 2 = 1 := by
  constructor
  · rw [sumPreviousFailures, sumPreviousFailures_foldl, Nat.zero_add]
  · decide

theorem countFirstFailure_of_mem {f : String} {fails : List FailureState}
    (h : ∃ s ∈ fails, s.file = f) :
    ∃ pre s post, fails = pre ++ s :: post ∧ (∀ t ∈ pre, t.file ≠ f) ∧ s.file = f ∧
      countFirstFailure f fails = some (pre ++ { s with count := s.count + 1 } :: post) := by
  induction fails with
  | nil => simp at h
  | cons a ss ih =>
    by_cases ha : a.file = f
    · exact ⟨[], a, ss, by simp, by simp, ha, by simp [countFirstFailure, ha]⟩
    · obtain ⟨s, hs, hsf⟩ := h
      rcases List.mem_cons.mp hs with rfl | hmem
      · exact absurd hsf ha
      obtain ⟨pre, s', post, heq, hpre, hf', hcount⟩ := ih ⟨s, hmem, hsf⟩
      refine ⟨a :: pre, s', post, by simp [heq], ?_, hf', ?_⟩
      · intro t ht
        rcases List.mem_cons.mp ht with rfl | ht2
        · exact ha
        · exact hpre t ht2
      · simp [countFirstFailure, ha, hcount]

theorem countFirstFailure_vectors {f : String} {fails l : List FailureState}
    (h : countFirstFailure f fails = some l) :
    ∀ s ∈ l, ∃ t ∈ fails, s.vector = t.vector := by
  induction fails generalizing l with
  | nil => simp [countFirstFailure] at h
  | cons a ss ih =>
    simp only [countFirstFailure] at h
    by_cases ha : a.file = f
    · rw [if_pos ha] at h
      injection h with h
      subst h
      intro s hs
      rcases List.mem_cons.mp hs with rfl | hmem
      · exact ⟨a, List.mem_cons_self a ss, rfl⟩
      · exact ⟨s, List.mem_cons_of_mem a hmem, rfl⟩
    · rw [if_neg ha] at h
      cases hro : countFirstFailure f ss with
      | none => rw [hro] at h; simp at h
      | some rest =>
        rw [hro] at h
        simp only [Option.map_some'] at h
        injection h with h
        subst h
        intro s hs
        rcases List.mem_cons.mp hs with rfl | hmem
        · exact ⟨s, List.mem_cons_self s ss, rfl⟩
        · obtain ⟨t, ht, hv⟩ := ih hro s hmem
          exact ⟨t, List.mem_cons_of_mem a ht, hv⟩

/-- C10: a failure record's generation is fixed at creation.  When
`countFailure` hits a file that already has a record, the first matching
record's count is incremented while its `vector` field keeps its original
value and everything else is untouched, even when the current run vector
is larger; concretely, a record created at generation 1 and hit again at
generation 5 still sums under `sumPreviousFailures 2`. -/
theorem countFailure_keeps_generation (fails : List FailureState) (f : String) (w : Nat)
    (h : ∃ s ∈ fails, s.file = f) :
    (∃ pre s post, fails = pre ++ s :: post ∧ (∀ t ∈ pre, t.file ≠ f) ∧ s.file = f ∧
      countFailure fails f w = pre ++ FailureState.mk f s.vector (s.count + 1) :: post) ∧
    countFailure [FailureState.mk "X" 1 1] "X" 5 = [FailureState.mk "X" 1 2] ∧
    sumPreviousFailures (countFailure [FailureState.mk "X" 1 1] "X" 5) 2 = 2 := by
  refine ⟨?_, by decide, by decide⟩
  obtain ⟨pre, s, post, heq, hpre, hf, hc⟩ := countFirstFailure_of_mem h
  refine ⟨pre, s, post, heq, hpre, hf, ?_⟩
  rw [countFailure, hc]
  cases s with
  | mk sf sv sc =>
    simp only at hf
    rw [hf]

/-- Witness for C10 at a concrete record list. -/
theorem countFailure_keeps_generation_witness :
    (∃ s ∈ [FailureState.mk "X" 1 1], s.file = "X") ∧
    countFailure [FailureState.mk "X" 1 1] "X" 5 = [FailureState.mk "X" 1 2] :=
  ⟨by decide, (countFailure_keeps_generation [FailureState.mk "X" 1 1] "X" 5 (by decide)).2.1⟩

/-- Invariant relating the failure tracker to the current run vector:
every record's generation is at most the vector. -/
def failuresOK (filesWithFailures : List FailureState) (runVector : Nat) : Prop :=
  ∀ s ∈ filesWithFailures, s.vector ≤ runVector

/-- C7: every failure record's generation stays at most the current run
generation: the bound survives any increase of the run vector (starting a
run increments it), counting a failure whose vector was captured at or
below the current vector, and pruning a record. -/
theorem failure_generation_le_runVector (fails : List FailureState) (v w : Nat)
    (f : String) (hOK : failuresOK fails v) :
    (∀ v', v ≤ v' → failuresOK fails v') ∧
    (w ≤ v → failuresOK (countFailure fails f w) v) ∧
    failuresOK (pruneFailures fails f) v := by
  refine ⟨?_, ?_, ?_⟩
  · intro v' hv s hs
    exact le_trans (hOK s hs) hv
  · intro hw
    rw [countFailure]
    cases hc : countFirstFailure f fails with
    | none =>
      intro s hs
      rcases List.mem_append.mp hs with hmem | hmem
      · exact hOK s hmem
      · simp only [List.mem_singleton] at hmem
        subst hmem
        exact hw
    | some l =>
      intro s hs
      obtain ⟨t, ht, hv⟩ := countFirstFailure_vectors hc s hs
      rw [hv]
      exact hOK t ht
  · intro s hs
    exact hOK s (List.mem_of_mem_filter hs)

/-- Witness for C7 at a concrete record and vectors. -/
theorem failure_generation_le_runVector_witness :
    failuresOK [FailureState.mk "X" 1 1] 2 ∧
    failuresOK (countFailure [FailureState.mk "X" 1 1] "X" 1) 2 := by
  have hOK : failuresOK [FailureState.mk "X" 1 1] 2 := by
    intro s hs
    simp only [List.mem_singleton] at hs
    rw [hs]
    decide
  exact ⟨hOK, (failure_generation_le_runVector [FailureState.mk "X" 1 1] 2 1 "X" hOK).2.1 (by decide)⟩

theorem updateFirstDep_none_iff {file : String} {sources : List String}
    {deps : List TestDependency} :
    updateFirstDep file sources deps = none ↔ ∀ d ∈ deps, d.file ≠ file := by
  induction deps with
  | nil => simp [updateFirstDep]
  | cons d ds ih =>
    simp only [updateFirstDep]
    by_cases h : d.file = file
    · simp [h]
    · simp [h, ih]

theorem updateFirstDep_some_files {file : String} {sources : List String}
    {deps l : List TestDependency} (h : updateFirstDep file sources deps = some l) :
    l.map TestDependency.file = deps.map TestDependency.file := by
  induction deps generalizing l with
  | nil => simp [updateFirstDep] at h
  | cons d ds ih =>
    simp only [updateFirstDep] at h
    by_cases hd : d.file = file
    · rw [if_pos hd] at h
      injection h with h
      subst h
      simp
    · rw [if_neg hd] at h
      cases hro : updateFirstDep file sources ds with
      | none => rw [hro] at h; simp at h
      | some rest =>
        rw [hro] at h
        simp only [Option.map_some'] at h
        injection h with h
        subst h
        simp [ih hro]

theorem updateFirstDep_idem {file : String} {sources : List String}
    {deps l : List TestDependency} (h : updateFirstDep file sources deps = some l) :
    updateFirstDep file sources l = some l := by
  induction deps generalizing l with
  | nil => simp [updateFirstDep] at h
  | cons d ds ih =>
    simp only [updateFirstDep] at h
    by_cases hd : d.file = file
    · rw [if_pos hd] at h
      injection h with h
      subst h
      cases d with
      | mk df dsrc => simp only at hd; simp [updateFirstDep, hd]
    · rw [if_neg hd] at h
      cases hro : updateFirstDep file sources ds with
      | none => rw [hro] at h; simp at h
      | some rest =>
        rw [hro] at h
        simp only [Option.map_some'] at h
        injection h with h
        subst h
        simp [updateFirstDep, hd, ih hro]

theorem updateFirstDep_append_self {file : String} {sources : List String}
    {deps : List TestDependency} (h : ∀ d ∈ deps, d.file ≠ file) :
    updateFirstDep file sources (deps ++ [TestDependency.mk file sources])
      = some (deps ++ [TestDependency.mk file sources]) := by
  induction deps with
  | nil => simp [updateFirstDep]
  | cons d ds ih =>
    have hd : d.file ≠ file := h d (List.mem_cons_self d ds)
    simp only [List.cons_append, updateFirstDep, if_neg hd, List.append_eq]
    rw [ih (fun d' hd' => h d' (List.mem_cons_of_mem d hd'))]
    simp

/-- C8: `updateTestDependencies` is idempotent (a second report of the
same source set is a no-op), keeps at most one entry per test file (the
file keys stay duplicate-free), and an empty filtered source set removes
every entry for the reported file. -/
theorem updateTestDependencies_idempotent (deps : List TestDependency) (file : String)
    (sources : List String) :
    updateTestDependencies (updateTestDependencies deps file sources) file sources
      = updateTestDependencies deps file sources ∧
    ((deps.map TestDependency.file).Nodup →
      ((updateTestDependencies deps file sources).map TestDependency.file).Nodup) ∧
    (∀ dep ∈ updateTestDependencies deps file [], dep.file ≠ file) := by
  refine ⟨?_, ?_, ?_⟩
  · by_cases hs : sources.length = 0
    · simp [updateTestDependencies, hs, List.filter_filter]
    · simp only [updateTestDependencies, if_neg hs]
      cases hu : updateFirstDep file sources deps with
      | some l => rw [updateFirstDep_idem hu]
      | none =>
        rw [updateFirstDep_append_self (updateFirstDep_none_iff.mp hu)]
  · intro hnd
    by_cases hs : sources.length = 0
    · simp only [updateTestDependencies, if_pos hs]
      exact List.Nodup.sublist ((List.filter_sublist deps).map TestDependency.file) hnd
    · simp only [updateTestDependencies, if_neg hs]
      cases hu : updateFirstDep file sources deps with
      | some l => rw [updateFirstDep_some_files hu]; exact hnd
      | none =>
        have hnone := updateFirstDep_none_iff.mp hu
        rw [List.map_append]
        rw [List.nodup_append]
        refine ⟨hnd, by simp, ?_⟩
        intro x hx
        simp only [List.mem_map] at hx
        obtain ⟨d, hd, rfl⟩ := hx
        simp only [List.map_cons, List.map_nil, List.mem_singleton]
        exact hnone d hd
  · intro dep hdep
    simp only [updateTestDependencies, List.length_nil, if_pos rfl] at hdep
    have := List.of_mem_filter hdep
    simpa using this

/-- Witness for C8 at a concrete dependency collection. -/
theorem updateTestDependencies_idempotent_witness :
    (([TestDependency.mk "T" ["S"]].map TestDependency.file).Nodup) ∧
    ((updateTestDependencies [TestDependency.mk "T" ["S"]] "T" ["S2"]).map
      TestDependency.file).Nodup :=
  ⟨by decide,
   (updateTestDependencies_idempotent [TestDependency.mk "T" ["S"]] "T" ["S2"]).2.1 (by decide)⟩

theorem exclusive_filter_length_eq_iff {excl sf : List String}
    (hexcl : excl.Nodup) (hsf : sf.Nodup) :
    (sf.filter (fun f => excl.contains f)).length = excl.length ↔ ∀ x ∈ excl, x ∈ sf := by
  have hnodup : (sf.filter (fun f => excl.contains f)).Nodup := hsf.filter _
  have hsub : (sf.filter (fun f => excl.contains f)) ⊆ excl := by
    intro x hx
    have := List.mem_filter.mp hx
    simpa using this.2
  have hsp := List.subperm_of_subset hnodup hsub
  constructor
  · intro hlen
    have hperm := hsp.perm_of_length_le (le_of_eq hlen.symm)
    intro x hxe
    have hxf : x ∈ sf.filter (fun f => excl.contains f) := hperm.mem_iff.mpr hxe
    exact (List.mem_filter.mp hxf).1
  · intro hall
    have hsub2 : excl ⊆ sf.filter (fun f => excl.contains f) := by
      intro x hx
      rw [List.mem_filter]
      exact ⟨hall x hx, by simpa using hx⟩
    have hsp2 := List.subperm_of_subset hexcl hsub2
    exact Nat.le_antisymm hsp.length_le hsp2.length_le

/-- C1: the exclusivity override in `run`.  When the requested files that
currently bear exclusive tests form a strict subset of the whole exclusive
set (some exclusive-bearing file is missing from the request), the issued
list becomes all exclusive-bearing files plus the requested files that are
not exclusive-bearing, with `runOnlyExclusive` set; when the request
already covers the whole exclusive set, no expansion occurs.  Concretely,
with exclusive set `A, B`, requesting `A` runs `A, B` and requesting
`A, B` is left alone. -/
theorem run_exclusivity_override (excl files sf : List String)
    (hexcl : excl.Nodup) (hsf : sf.Nodup) :
    ((∃ x ∈ excl, x ∉ sf) →
      run excl files (some sf)
        = { files := excl ++ sf.filter (fun f => !excl.contains f)
            runOnlyExclusive := true }) ∧
    ((∀ x ∈ excl, x ∈ sf) →
      run excl files (some sf) = { files := sf, runOnlyExclusive := false }) ∧
    run ["A", "B"] files (some ["A"])
      = { files := ["A", "B"], runOnlyExclusive := true } ∧
    run ["A", "B"] files (some ["A", "B"])
      = { files := ["A", "B"], runOnlyExclusive := false } := by
  refine ⟨?_, ?_, by rfl, by rfl⟩
  · rintro ⟨x, hxe, hxs⟩
    have hne : (sf.filter (fun f => excl.contains f)).length ≠ excl.length := by
      intro heq
      exact hxs ((exclusive_filter_length_eq_iff hexcl hsf).mp heq x hxe)
    simp only [run]
    rw [if_pos hne]
    have harr : arrDiff sf (sf.filter (fun f => excl.contains f))
        = sf.filter (fun f => !excl.contains f) := by
      rw [arrDiff]
      apply List.filter_congr
      intro y hy
      have hc : ((sf.filter (fun f => excl.contains f)).contains y) = (excl.contains y) := by
        by_cases hyex : y ∈ excl
        · simp [List.mem_filter, hy, hyex]
        · simp [List.mem_filter, hyex]
      rw [hc]
    rw [harr]
  · intro hall
    have heq : (sf.filter (fun f => excl.contains f)).length = excl.length :=
      (exclusive_filter_length_eq_iff hexcl hsf).mpr hall
    simp only [run]
    rw [if_neg (not_not_intro heq)]

/-- Witness for C1 at the concrete exclusive set of the claim. -/
theorem run_exclusivity_override_witness :
    (["A", "B"] : List String).Nodup ∧ (["A"] : List String).Nodup ∧
    run ["A", "B"] ["t1", "t2"] (some ["A"])
      = { files := ["A", "B"], runOnlyExclusive := true } :=
  ⟨by decide, by decide,
   (run_exclusivity_override ["A", "B"] ["t1", "t2"] ["A"] (by decide) (by decide)).2.2.1⟩

theorem length_filter_lt_of_mem_not {α : Type} {p : α → Bool} {l : List α} {x : α}
    (hx : x ∈ l) (hpx : p x = false) : (l.filter p).length < l.length := by
  induction l with
  | nil => cases hx
  | cons a as ih =>
    rcases List.mem_cons.mp hx with rfl | hmem
    · rw [List.filter_cons, if_neg (by simp [hpx])]
      exact Nat.lt_succ_of_le (List.length_filter_le p as)
    · rw [List.filter_cons]
      by_cases hpa : p a = true
      · rw [if_pos hpa]
        simpa using ih hmem
      · rw [if_neg (by simpa using hpa)]
        exact Nat.lt_succ_of_le (Nat.le_of_lt (ih hmem))

theorem cleanUnlinkedTests_deps_subset {st : TrackerState} {l : List String}
    {dep : TestDependency}
    (h : dep ∈ (cleanUnlinkedTests st l).testDependencies) :
    dep ∈ st.testDependencies := by
  induction l generalizing st with
  | nil => exact h
  | cons q rest ih =>
    have h2 := ih (show dep ∈ (cleanUnlinkedTests (cleanOneTest st q) rest).testDependencies from h)
    simp only [cleanOneTest, updateTestDependencies, List.length_nil, if_pos rfl] at h2
    exact List.mem_of_mem_filter h2

theorem mem_dirtySources_iff {isTest : String → Bool}
    {ds : List (String × FsEvent)} {p : String} :
    p ∈ dirtySourcesOf isTest ds ↔ p ∈ dirtyPathsOf ds ∧ isTest p = false := by
  simp only [dirtySourcesOf, arrDiff, dirtyTestsOf, List.mem_filter]
  constructor
  · rintro ⟨hp, hnc⟩
    refine ⟨hp, ?_⟩
    by_cases ht : isTest p = true
    · exfalso
      have : p ∈ (dirtyPathsOf ds).filter isTest := List.mem_filter.mpr ⟨hp, ht⟩
      simp [this] at hnc
    · simpa using ht
  · rintro ⟨hp, hnt⟩
    refine ⟨hp, ?_⟩
    have hnm : p ∉ (dirtyPathsOf ds).filter isTest := by
      intro hmem
      have := (List.mem_filter.mp hmem).2
      rw [hnt] at this
      cases this
    simp [hnm]

theorem tracedTestsFor_eq_nil_iff {deps : List TestDependency} {p : String} :
    tracedTestsFor deps p = [] ↔ ∀ dep ∈ deps, dep.containsSource p = false := by
  constructor
  · intro h dep hdep
    by_cases hc : dep.containsSource p = true
    · exfalso
      have hmem : dep ∈ deps.filter (fun dep => dep.containsSource p) :=
        List.mem_filter.mpr ⟨hdep, hc⟩
      have : dep.file ∈ tracedTestsFor deps p := List.mem_map_of_mem _ hmem
      rw [h] at this
      cases this
    · simpa using hc
  · intro h
    rw [tracedTestsFor]
    have : deps.filter (fun dep => dep.containsSource p) = [] := by
      rw [List.filter_eq_nil_iff]
      intro dep hdep
      rw [h dep hdep]
      simp
    rw [this, List.map_nil]

theorem runAll_of_untraced_source {isTest : String → Bool} {st : TrackerState}
    {ds : List (String × FsEvent)} {p : String}
    (hp : p ∈ dirtyPathsOf ds) (hptest : isTest p = false)
    (huntraced : ∀ dep ∈ st.testDependencies, dep.containsSource p = false) :
    (runAfterChanges isTest st ds).1 = RunDecision.runAll := by
  have hps : p ∈ dirtySourcesOf isTest ds := mem_dirtySources_iff.mpr ⟨hp, hptest⟩
  have hlt : (dirtyTestsOf isTest ds).length < (dirtyPathsOf ds).length :=
    length_filter_lt_of_mem_not hp hptest
  have hlen1 : (unlinkedTestsOf isTest ds).length ≠ (dirtyPathsOf ds).length := by
    have h1 : (unlinkedTestsOf isTest ds).length ≤ (dirtyTestsOf isTest ds).length :=
      List.length_filter_le _ _
    omega
  have hlen2 : (dirtySourcesOf isTest ds).length ≠ 0 := by
    intro h0
    rw [List.length_eq_zero] at h0
    rw [h0] at hps
    cases hps
  have huntraced2 : tracedTestsFor
      (cleanUnlinkedTests st (unlinkedTestsOf isTest ds)).testDependencies p = [] := by
    rw [tracedTestsFor_eq_nil_iff]
    intro dep hdep
    exact huntraced dep (cleanUnlinkedTests_deps_subset hdep)
  have hlen3 : (testsBySourceOf isTest
      (cleanUnlinkedTests st (unlinkedTestsOf isTest ds)).testDependencies ds).length
      ≠ (dirtySourcesOf isTest ds).length := by
    have hmem : ([] : List String) ∈ (dirtySourcesOf isTest ds).map
        (fun path => tracedTestsFor
          (cleanUnlinkedTests st (unlinkedTestsOf isTest ds)).testDependencies path) := by
      rw [List.mem_map]
      exact ⟨p, hps, huntraced2⟩
    have hflt : (((dirtySourcesOf isTest ds).map
        (fun path => tracedTestsFor
          (cleanUnlinkedTests st (unlinkedTestsOf isTest ds)).testDependencies
            path)).filter (fun tests => tests.length > 0)).length
        < (((dirtySourcesOf isTest ds).map
          (fun path => tracedTestsFor
            (cleanUnlinkedTests st
              (unlinkedTestsOf isTest ds)).testDependencies path)).length) :=
      length_filter_lt_of_mem_not hmem rfl
    rw [List.length_map] at hflt
    rw [testsBySourceOf]
    omega
  simp only [runAfterChanges]
  rw [if_neg hlen1, if_neg hlen2, if_pos hlen3]

/-- C2: whenever some dirty source path has zero traced tests in the
dependency tracker, the decision cycle issues a full, unscoped run (no
specific file list). -/
theorem untraceable_source_full_rerun (isTest : String → Bool) (st : TrackerState)
    (ds : List (String × FsEvent)) (p : String)
    (hp : p ∈ dirtyPathsOf ds) (hptest : isTest p = false)
    (htraced : tracedTestsFor st.testDependencies p = []) :
    (runAfterChanges isTest st ds).1 = RunDecision.runAll :=
  runAll_of_untraced_source hp hptest (tracedTestsFor_eq_nil_iff.mp htraced)

/-- Witness for C2: a change to a single untraced source path. -/
theorem untraceable_source_full_rerun_witness :
    ("s.js" ∈ dirtyPathsOf [("s.js", FsEvent.change)]) ∧
    (runAfterChanges (fun p => p == "t.js") (TrackerState.mk [] [] [])
      [("s.js", FsEvent.change)]).1 = RunDecision.runAll :=
  ⟨by decide,
   untraceable_source_full_rerun (fun p => p == "t.js") (TrackerState.mk [] [] [])
     [("s.js", FsEvent.change)] "s.js" (by decide) (by decide) (by decide)⟩

/-- Concrete test classifier for the irrelevant-path scenario. -/
def isTestEx (path : String) : Bool := path == "test/t.js"

/-- Concrete source classifier for the irrelevant-path scenario; the
binary file below matches neither classifier. -/
def isSourceEx (path : String) : Bool := path == "lib/s.js"

/-- Counterexample to C6: a dirty path classified neither as test nor as
source is not ignored by the decision cycle.  With only the dirty test,
the cycle runs exactly that test; adding the irrelevant dirty path flips
the decision into a full unscoped run, so its presence changes which files
the run executes. -/
theorem irrelevant_path_changes_run :
    isTestEx "weird.bin" = false ∧ isSourceEx "weird.bin" = false ∧
    (runAfterChanges isTestEx (TrackerState.mk [] [] [])
      [("test/t.js", FsEvent.change)]).1 = RunDecision.runSpecific ["test/t.js"] ∧
    (runAfterChanges isTestEx (TrackerState.mk [] [] [])
      [("test/t.js", FsEvent.change), ("weird.bin", FsEvent.change)]).1
      = RunDecision.runAll :=
  ⟨by decide, by decide, by decide, by decide⟩

/-- C6 amended: a dirty path classified neither as test nor as source is
treated by `runAfterChanges` as a dirty source rather than ignored; since
dependency entries only reference source-classified paths, such a path has
zero traced tests and its presence forces a full unscoped run. -/
theorem irrelevant_path_forces_full_rerun (isTest isSource : String → Bool)
    (st : TrackerState) (ds : List (String × FsEvent)) (p : String)
    (hp : p ∈ dirtyPathsOf ds) (hptest : isTest p = false) (hpsource : isSource p = false)
    (hdeps : ∀ dep ∈ st.testDependencies, ∀ src ∈ dep.sources, isSource src = true) :
    p ∈ dirtySourcesOf isTest ds ∧
    (runAfterChanges isTest st ds).1 = RunDecision.runAll := by
  refine ⟨mem_dirtySources_iff.mpr ⟨hp, hptest⟩, ?_⟩
  apply runAll_of_untraced_source hp hptest
  intro dep hdep
  by_cases hc : dep.containsSource p = true
  · exfalso
    rw [TestDependency.containsSource] at hc
    have hpm : p ∈ dep.sources := by simpa using hc
    have hsrc := hdeps dep hdep p hpm
    rw [hpsource] at hsrc
    cases hsrc
  · simpa using hc

/-- Witness for the amended C6 at the concrete scenario. -/
theorem irrelevant_path_forces_full_rerun_witness :
    ("weird.bin" ∈ dirtyPathsOf
      [("test/t.js", FsEvent.change), ("weird.bin", FsEvent.change)]) ∧
    (runAfterChanges isTestEx (TrackerState.mk [] [] [])
      [("test/t.js", FsEvent.change), ("weird.bin", FsEvent.change)]).1
      = RunDecision.runAll :=
  ⟨by decide,
   (irrelevant_path_forces_full_rerun isTestEx isSourceEx (TrackerState.mk [] [] [])
      [("test/t.js", FsEvent.change), ("weird.bin", FsEvent.change)] "weird.bin"
      (by decide) (by decide) (by decide) (by decide)).2⟩

/-- Cleanliness of the trackers with respect to one file: no dependency
entry, no exclusivity membership, no failure record. -/
def cleanedFor (st : TrackerState) (p : String) : Prop :=
  (∀ dep ∈ st.testDependencies, dep.file ≠ p) ∧
  p ∉ st.filesWithExclusiveTests ∧
  (∀ s ∈ st.filesWithFailures, s.file ≠ p)

theorem updateExclusivity_nodup {excl : List String} {f : String} {b : Bool}
    (h : excl.Nodup) : (updateExclusivity excl f b).Nodup := by
  rw [updateExclusivity]
  by_cases h1 : (b && !excl.contains f) = true
  · rw [if_pos h1]
    rw [List.nodup_append]
    refine ⟨h, by simp, ?_⟩
    intro x hx
    simp only [List.mem_singleton]
    rintro rfl
    have : ¬ excl.contains x := by
      cases b <;> simp_all
    simp [hx] at this
  · rw [if_neg h1]
    by_cases h2 : (!b && excl.contains f) = true
    · rw [if_pos h2]
      exact h.erase f
    · rw [if_neg h2]
      exact h

theorem cleanOneTest_cleans {st : TrackerState} {p : String}
    (hexcl : st.filesWithExclusiveTests.Nodup) : cleanedFor (cleanOneTest st p) p := by
  refine ⟨?_, ?_, ?_⟩
  · intro dep hdep
    simp only [cleanOneTest, updateTestDependencies, List.length_nil, if_pos rfl] at hdep
    have := List.of_mem_filter hdep
    simpa using this
  · simp only [cleanOneTest, updateExclusivity, Bool.false_and, Bool.false_eq_true,
      if_false, Bool.not_false, Bool.true_and]
    by_cases hc : st.filesWithExclusiveTests.contains p = true
    · rw [if_pos hc]
      intro hmem
      have := (hexcl.mem_erase_iff).mp hmem
      exact this.1 rfl
    · rw [if_neg hc]
      intro hmem
      simp [hmem] at hc
  · intro s hs
    simp only [cleanOneTest, pruneFailures] at hs
    have := List.of_mem_filter hs
    simpa using this

theorem cleanOneTest_preserves {st : TrackerState} {p q : String}
    (h : cleanedFor st p) : cleanedFor (cleanOneTest st q) p := by
  obtain ⟨hdeps, hexcl, hfails⟩ := h
  refine ⟨?_, ?_, ?_⟩
  · intro dep hdep
    simp only [cleanOneTest, updateTestDependencies, List.length_nil, if_pos rfl] at hdep
    exact hdeps dep (List.mem_of_mem_filter hdep)
  · simp only [cleanOneTest, updateExclusivity, Bool.false_and, Bool.false_eq_true,
      if_false, Bool.not_false, Bool.true_and]
    by_cases hc : st.filesWithExclusiveTests.contains q = true
    · rw [if_pos hc]
      intro hmem
      exact hexcl (List.mem_of_mem_erase hmem)
    · rw [if_neg hc]
      exact hexcl
  · intro s hs
    simp only [cleanOneTest, pruneFailures] at hs
    exact hfails s (List.mem_of_mem_filter hs)

theorem cleanUnlinkedTests_preserves {st : TrackerState} {l : List String} {p : String}
    (h : cleanedFor st p) : cleanedFor (cleanUnlinkedTests st l) p := by
  induction l generalizing st with
  | nil => exact h
  | cons q rest ih => exact ih (cleanOneTest_preserves h)

theorem cleanUnlinkedTests_cleans {st : TrackerState} {l : List String} {p : String}
    (hexcl : st.filesWithExclusiveTests.Nodup) (hp : p ∈ l) :
    cleanedFor (cleanUnlinkedTests st l) p := by
  induction l generalizing st with
  | nil => cases hp
  | cons q rest ih =>
    rcases List.mem_cons.mp hp with rfl | hmem
    · show cleanedFor (cleanUnlinkedTests (cleanOneTest st p) rest) p
      exact cleanUnlinkedTests_preserves (cleanOneTest_cleans hexcl)
    · show cleanedFor (cleanUnlinkedTests (cleanOneTest st q) rest) p
      refine ih ?_ hmem
      show (updateExclusivity st.filesWithExclusiveTests q false).Nodup
      exact updateExclusivity_nodup hexcl

theorem lookupState_eq_of_mem {ds : List (String × FsEvent)} {p : String} {e : FsEvent}
    (hnodup : (dirtyPathsOf ds).Nodup) (hmem : (p, e) ∈ ds) :
    lookupState ds p = some e := by
  induction ds with
  | nil => cases hmem
  | cons a rest ih =>
    rcases List.mem_cons.mp hmem with rfl | hmem2
    · simp [lookupState, List.find?_cons]
    · have hane : a.fst ≠ p := by
        intro he
        rw [dirtyPathsOf, List.map_cons, List.nodup_cons] at hnodup
        refine hnodup.1 ?_
        rw [he]
        exact List.mem_map_of_mem Prod.fst hmem2
      rw [lookupState, List.find?_cons, decide_eq_false hane]
      exact ih (by rw [dirtyPathsOf, List.map_cons, List.nodup_cons] at hnodup; exact hnodup.2)
        hmem2

theorem mem_unlinkedTests {isTest : String → Bool} {ds : List (String × FsEvent)}
    {p : String} (hnodup : (dirtyPathsOf ds).Nodup) (hmem : (p, FsEvent.unlink) ∈ ds)
    (htest : isTest p = true) : p ∈ unlinkedTestsOf isTest ds := by
  have hpd : p ∈ dirtyPathsOf ds := List.mem_map_of_mem Prod.fst hmem
  have hpt : p ∈ dirtyTestsOf isTest ds := List.mem_filter.mpr ⟨hpd, htest⟩
  have hlook : lookupState ds p = some FsEvent.unlink := lookupState_eq_of_mem hnodup hmem
  rw [unlinkedTestsOf, arrDiff, List.mem_filter]
  refine ⟨hpt, ?_⟩
  have hnm : p ∉ addedOrChangedTestsOf isTest ds := by
    intro hp2
    have h2 := (List.mem_filter.mp hp2).2
    rw [hlook] at h2
    simp at h2
  simp [hnm]

theorem lookupState_all_unlink {ds : List (String × FsEvent)}
    (h : ∀ pe ∈ ds, pe.2 = FsEvent.unlink) {p : String}
    (hp : p ∈ dirtyPathsOf ds) : lookupState ds p = some FsEvent.unlink := by
  rw [lookupState]
  cases hf : ds.find? (fun pe => pe.fst = p) with
  | none =>
    exfalso
    rw [List.find?_eq_none] at hf
    obtain ⟨pe, hpe, heq⟩ := List.mem_map.mp hp
    exact absurd (by simpa using heq) (hf pe hpe)
  | some q =>
    have hqm := List.mem_of_find?_eq_some hf
    rw [Option.map_some', h q hqm]

theorem runAfterChanges_snd (isTest : String → Bool) (st : TrackerState)
    (ds : List (String × FsEvent)) :
    (runAfterChanges isTest st ds).2
      = cleanUnlinkedTests st (unlinkedTestsOf isTest ds) := by
  simp only [runAfterChanges]
  split_ifs <;> rfl

/-- C4: every dirty test path whose recorded event is a removal is fully
cleaned up by the decision cycle (dependency entry gone, exclusivity
membership gone, failure record gone), and a cycle whose dirty paths are
all removed tests starts no run. -/
theorem removed_test_cleanup (isTest : String → Bool) (st : TrackerState)
    (ds : List (String × FsEvent)) (hnodup : (dirtyPathsOf ds).Nodup)
    (hexcl : st.filesWithExclusiveTests.Nodup) :
    (∀ p, (p, FsEvent.unlink) ∈ ds → isTest p = true →
      cleanedFor (runAfterChanges isTest st ds).2 p) ∧
    ((∀ pe ∈ ds, isTest pe.1 = true ∧ pe.2 = FsEvent.unlink) →
      (runAfterChanges isTest st ds).1 = RunDecision.noRun) := by
  constructor
  · intro p hmem htest
    rw [runAfterChanges_snd]
    exact cleanUnlinkedTests_cleans hexcl (mem_unlinkedTests hnodup hmem htest)
  · intro hall
    have htests : dirtyTestsOf isTest ds = dirtyPathsOf ds := by
      rw [dirtyTestsOf, List.filter_eq_self]
      intro x hx
      obtain ⟨pe, hpe, heq⟩ := List.mem_map.mp hx
      rw [← heq]
      exact (hall pe hpe).1
    have hadded : addedOrChangedTestsOf isTest ds = [] := by
      rw [addedOrChangedTestsOf, List.filter_eq_nil_iff]
      intro x hx
      rw [htests] at hx
      rw [lookupState_all_unlink (fun pe hpe => (hall pe hpe).2) hx]
      simp
    have hunlinked : unlinkedTestsOf isTest ds = dirtyPathsOf ds := by
      rw [unlinkedTestsOf, hadded, arrDiff, htests, List.filter_eq_self]
      intro x hx
      simp
    simp only [runAfterChanges]
    rw [if_pos (by rw [hunlinked])]

/-- Witness for C4: removal of a tracked, exclusive, failing test file. -/
theorem removed_test_cleanup_witness :
    cleanedFor (runAfterChanges (fun p => p == "T")
      (TrackerState.mk [TestDependency.mk "T" ["S"]] ["T"] [FailureState.mk "T" 1 2])
      [("T", FsEvent.unlink)]).2 "T" ∧
    (runAfterChanges (fun p => p == "T")
      (TrackerState.mk [TestDependency.mk "T" ["S"]] ["T"] [FailureState.mk "T" 1 2])
      [("T", FsEvent.unlink)]).1 = RunDecision.noRun := by
  have h := removed_test_cleanup (fun p => p == "T")
    (TrackerState.mk [TestDependency.mk "T" ["S"]] ["T"] [FailureState.mk "T" 1 2])
    [("T", FsEvent.unlink)] (by decide) (by decide)
  exact ⟨h.1 "T" (by decide) (by decide), h.2 (by decide)⟩

theorem toFinset_union_flatten (A srcs : List String) (g : String → List String) :
    (union A
      (uniq (((srcs.map g).filter (fun tests => tests.length > 0)).flatten))).toFinset
      = A.toFinset ∪ ((srcs.map g).flatten).toFinset := by
  ext x
  simp only [List.mem_toFinset, Finset.mem_union, mem_union, mem_uniq, List.mem_flatten,
    List.mem_filter, decide_eq_true_eq]
  constructor
  · rintro (hx | ⟨l, ⟨hl, hlen⟩, hxl⟩)
    · exact Or.inl hx
    · exact Or.inr ⟨l, hl, hxl⟩
  · rintro (hx | ⟨l, hl, hxl⟩)
    · exact Or.inl hx
    · refine Or.inr ⟨l, ⟨hl, ?_⟩, hxl⟩
      exact List.length_pos.mpr (List.ne_nil_of_mem hxl)

/-- C3, amended with the proviso that at least one dirty path is not a
removed test (a cycle consisting solely of removed tests skips execution):
when every dirty source path has at least one traced test in the
post-cleanup dependency tracker, the cycle issues a scoped run whose file
list is duplicate-free and covers exactly the added-or-changed dirty tests
together with all traced tests of all dirty sources. -/
theorem dependency_scoping (isTest : String → Bool) (st : TrackerState)
    (ds : List (String × FsEvent)) (hnodup : (dirtyPathsOf ds).Nodup)
    (hsome : ∃ pe ∈ ds, ¬(isTest pe.1 = true ∧ pe.2 = FsEvent.unlink))
    (htraced : ∀ p ∈ dirtySourcesOf isTest ds,
      tracedTestsFor
        (cleanUnlinkedTests st (unlinkedTestsOf isTest ds)).testDependencies p ≠ []) :
    (runAfterChanges isTest st ds).1 = RunDecision.runSpecific
      (union (addedOrChangedTestsOf isTest ds)
        (uniq (testsBySourceOf isTest
          (cleanUnlinkedTests st (unlinkedTestsOf isTest ds)).testDependencies
          ds).flatten)) ∧
    (union (addedOrChangedTestsOf isTest ds)
      (uniq (testsBySourceOf isTest
        (cleanUnlinkedTests st (unlinkedTestsOf isTest ds)).testDependencies
        ds).flatten)).Nodup ∧
    (union (addedOrChangedTestsOf isTest ds)
      (uniq (testsBySourceOf isTest
        (cleanUnlinkedTests st (unlinkedTestsOf isTest ds)).testDependencies
        ds).flatten)).toFinset
      = (addedOrChangedTestsOf isTest ds).toFinset ∪
        ((dirtySourcesOf isTest ds).map
          (tracedTestsFor
            (cleanUnlinkedTests st
              (unlinkedTestsOf isTest ds)).testDependencies)).flatten.toFinset := by
  obtain ⟨pe, hpe, hne⟩ := hsome
  have hsub : List.Sublist (unlinkedTestsOf isTest ds) (dirtyPathsOf ds) :=
    List.Sublist.trans (List.filter_sublist _) (List.filter_sublist _)
  have hpne : pe.1 ∉ unlinkedTestsOf isTest ds := by
    intro hu
    rw [unlinkedTestsOf, arrDiff, List.mem_filter] at hu
    obtain ⟨hpt, hnc⟩ := hu
    have htest : isTest pe.1 = true := (List.mem_filter.mp hpt).2
    have hlook : lookupState ds pe.1 = some pe.2 := lookupState_eq_of_mem hnodup hpe
    by_cases hun : pe.2 = FsEvent.unlink
    · exact hne ⟨htest, hun⟩
    · have hadd : pe.1 ∈ addedOrChangedTestsOf isTest ds := by
        rw [addedOrChangedTestsOf, List.mem_filter]
        refine ⟨hpt, ?_⟩
        rw [hlook]
        simp [hun]
      simp [hadd] at hnc
  have hlen1 : (unlinkedTestsOf isTest ds).length ≠ (dirtyPathsOf ds).length := by
    intro heq
    have heqL := hsub.eq_of_length heq
    refine hpne ?_
    rw [heqL]
    exact List.mem_map_of_mem Prod.fst hpe
  refine ⟨?_, nodup_union _ _, toFinset_union_flatten _ _ _⟩
  by_cases hs : dirtySourcesOf isTest ds = []
  · have hA : (addedOrChangedTestsOf isTest ds).Nodup :=
      List.Nodup.filter _ (List.Nodup.filter _ hnodup)
    have hTS : testsBySourceOf isTest
        (cleanUnlinkedTests st (unlinkedTestsOf isTest ds)).testDependencies ds = [] := by
      rw [testsBySourceOf, hs]
      rfl
    simp only [runAfterChanges]
    rw [if_neg hlen1, if_pos (by rw [hs]; rfl)]
    show RunDecision.runSpecific _ = _
    rw [hTS]
    congr 1
    rw [show ([] : List (List String)).flatten = [] from rfl,
      show uniq ([] : List String) = [] from rfl, union, List.append_nil]
    exact (uniq_eq_self hA).symm
  · have hguard3 : ¬ ((testsBySourceOf isTest
        (cleanUnlinkedTests st (unlinkedTestsOf isTest ds)).testDependencies ds).length
        ≠ (dirtySourcesOf isTest ds).length) := by
      have hfull : testsBySourceOf isTest
          (cleanUnlinkedTests st (unlinkedTestsOf isTest ds)).testDependencies ds
          = (dirtySourcesOf isTest ds).map
            (fun path => tracedTestsFor
              (cleanUnlinkedTests st (unlinkedTestsOf isTest ds)).testDependencies path) := by
        rw [testsBySourceOf, List.filter_eq_self]
        intro x hx
        obtain ⟨p, hp, hgp⟩ := List.mem_map.mp hx
        rw [← hgp]
        simpa [List.length_pos] using htraced p hp
      rw [hfull, List.length_map]
      exact not_not_intro rfl
    simp only [runAfterChanges]
    rw [if_neg hlen1, if_neg (fun h0 => hs (List.length_eq_zero.mp h0)), if_neg hguard3]

/-- Witness for the amended C3: source `S` is a dependency of test `T`
only, and a change to `S` alone triggers a run of exactly `T`. -/
theorem dependency_scoping_witness :
    (runAfterChanges (fun p => p == "T")
      (TrackerState.mk [TestDependency.mk "T" ["S"]] [] [])
      [("S", FsEvent.change)]).1 = RunDecision.runSpecific ["T"] := by
  have h := (dependency_scoping (fun p => p == "T")
    (TrackerState.mk [TestDependency.mk "T" ["S"]] [] [])
    [("S", FsEvent.change)] (by decide)
    ⟨("S", FsEvent.change), by decide, by decide⟩ (by decide)).1
  rw [h]
  rfl

theorem mem_keys_setDirty {ds : List (String × FsEvent)} {p q : String} {e : FsEvent} :
    q ∈ dirtyPathsOf (setDirty ds p e) ↔ q ∈ dirtyPathsOf ds ∨ q = p := by
  rw [setDirty]
  by_cases hc : (ds.map Prod.fst).contains p = true
  · rw [if_pos hc]
    have hp : p ∈ ds.map Prod.fst := by simpa using hc
    simp only [dirtyPathsOf, List.map_map, List.mem_map, Function.comp]
    constructor
    · rintro ⟨pe0, hpe0, heq0⟩
      by_cases hfst : pe0.fst = p
      · right
        rw [← heq0, if_pos hfst]
      · left
        exact ⟨pe0, hpe0, by rw [← heq0, if_neg hfst]⟩
    · rintro (⟨pe0, hpe0, heq0⟩ | rfl)
      · by_cases hfst : pe0.fst = p
        · exact ⟨pe0, hpe0, by rw [if_pos hfst, ← heq0, hfst]⟩
        · exact ⟨pe0, hpe0, by rw [if_neg hfst, heq0]⟩
      · obtain ⟨pe0, hpe0, heq0⟩ := List.mem_map.mp hp
        exact ⟨pe0, hpe0, by rw [if_pos heq0]⟩
  · rw [if_neg hc]
    rw [dirtyPathsOf, List.map_append]
    simp [dirtyPathsOf]

theorem keys_sub_foldl_setDirty {events : List (String × FsEvent)}
    {init : List (String × FsEvent)} {q : String} (h : q ∈ dirtyPathsOf init) :
    q ∈ dirtyPathsOf (events.foldl (fun ds pe => setDirty ds pe.fst pe.snd) init) := by
  induction events generalizing init with
  | nil => exact h
  | cons a rest ih => exact ih (mem_keys_setDirty.mpr (Or.inl h))

theorem mem_keys_foldl_setDirty {events : List (String × FsEvent)}
    {init : List (String × FsEvent)} {pe : String × FsEvent} (h : pe ∈ events) :
    pe.1 ∈ dirtyPathsOf (events.foldl (fun ds pe => setDirty ds pe.fst pe.snd) init) := by
  induction events generalizing init with
  | nil => cases h
  | cons a rest ih =>
    rcases List.mem_cons.mp h with rfl | hmem
    · rw [List.foldl_cons]
      exact keys_sub_foldl_setDirty (mem_keys_setDirty.mpr (Or.inr rfl))
    · exact ih hmem

theorem feedEvents_armed (events : List (String × FsEvent)) (w : WatchSystem)
    (ht : w.deb.timer = true) :
    feedEvents w events
      = { dirtyStates := events.foldl (fun ds pe => setDirty ds pe.fst pe.snd) w.dirtyStates
          deb := { timer := true, again := w.deb.again || !events.isEmpty }
          cycles := w.cycles } := by
  induction events generalizing w with
  | nil =>
    obtain ⟨d, ⟨t, ag⟩, c⟩ := w
    simp only at ht
    subst ht
    simp [feedEvents]
  | cons a rest ih =>
    rw [show feedEvents w (a :: rest) = feedEvents (onFsEvent w a.fst a.snd) rest from rfl]
    rw [ih (onFsEvent w a.fst a.snd) (by simp [onFsEvent, Debouncer.debounce, ht])]
    simp [onFsEvent, Debouncer.debounce, ht]

/-- C9: any burst of one or more filesystem events, each recording its
dirty state and calling `debounce`, leads after the timer has run its
course to exactly one invocation of the decision cycle, and that single
invocation observes the dirty states accumulated from the whole burst
(last event per path winning, no path dropped). -/
theorem debounce_coalescing (events : List (String × FsEvent)) (hne : events ≠ []) :
    (settle (feedEvents idleSystem events)).cycles
      = [events.foldl (fun ds pe => setDirty ds pe.fst pe.snd) []] ∧
    (∀ pe ∈ events,
      pe.fst ∈ dirtyPathsOf (events.foldl (fun ds pe => setDirty ds pe.fst pe.snd) [])) := by
  refine ⟨?_, fun pe hpe => mem_keys_foldl_setDirty hpe⟩
  cases events with
  | nil => exact absurd rfl hne
  | cons a rest =>
    have h1 : onFsEvent idleSystem a.fst a.snd
        = { dirtyStates := [(a.fst, a.snd)]
            deb := { timer := true, again := false }
            cycles := [] } := by
      simp [onFsEvent, idleSystem, setDirty, Debouncer.debounce]
    rw [show feedEvents idleSystem (a :: rest)
        = feedEvents (onFsEvent idleSystem a.fst a.snd) rest from rfl, h1]
    rw [feedEvents_armed rest _ rfl]
    rw [show (a :: rest).foldl (fun ds pe => setDirty ds pe.fst pe.snd) []
        = rest.foldl (fun ds pe => setDirty ds pe.fst pe.snd) [(a.fst, a.snd)] by
      rw [List.foldl_cons]
      rfl]
    cases hrest : rest.isEmpty
    · simp [settle, onTimerExpiry, hrest]
    · simp [settle, onTimerExpiry, hrest]

/-- Witness for C9: three rapid events, one path seen twice. -/
theorem debounce_coalescing_witness :
    (settle (feedEvents idleSystem
      [("a.js", FsEvent.change), ("b.js", FsEvent.add), ("a.js", FsEvent.unlink)])).cycles
      = [[("a.js", FsEvent.unlink), ("b.js", FsEvent.add)]] := by
  have h := (debounce_coalescing
    [("a.js", FsEvent.change), ("b.js", FsEvent.add), ("a.js", FsEvent.unlink)]
    (by decide)).1
  rw [h]
  rfl

/-- Counterexample to C3 as stated: in a cycle whose only dirty path is a
removed test, every dirty source (there are none) vacuously maps to at
least one traced test, yet the cycle starts no run at all instead of
running the (empty) deduplicated union. -/
theorem dependency_scoping_counterexample :
    dirtySourcesOf (fun p => p == "T") [("T", FsEvent.unlink)] = [] ∧
    (runAfterChanges (fun p => p == "T")
      (TrackerState.mk [] [] []) [("T", FsEvent.unlink)]).1 = RunDecision.noRun ∧
    (runAfterChanges (fun p => p == "T")
      (TrackerState.mk [] [] []) [("T", FsEvent.unlink)]).1
      ≠ RunDecision.runSpecific
        (union (addedOrChangedTestsOf (fun p => p == "T") [("T", FsEvent.unlink)])
          (uniq (testsBySourceOf (fun p => p == "T")
            (cleanUnlinkedTests (TrackerState.mk [] [] [])
              (unlinkedTestsOf (fun p => p == "T")
                [("T", FsEvent.unlink)])).testDependencies
            [("T", FsEvent.unlink)]).flatten)) :=
  ⟨by decide, by decide, by decide⟩
